import Mathlib

/-!
Verification of the distributed mutual-exclusion lock of the `dsync`
package (file `dmutex.go`).

The Go code is shallowly embedded as executable Lean functions.  Concurrency
is resolved into explicit schedules: the order in which `Granted` replies are
taken off the reply channel is an input list, and the position at which the
25 ms timer is selected by the decision loop is an `Option Nat` (`some t`
meaning the timer case fires after `t` further replies have been consumed,
`none` meaning it is never selected).  Asynchronous release RPCs
(`go sendRelease(...)`) are recorded as lists of dispatched peer indices.
A Go `panic` / blocking receive is modelled by `Option` (`none`).
-/

namespace Dsync

/-- Reply record posted to the channel by each RPC goroutine:
`Granted{index, locked}`.  A transport error is already folded into
`locked = false` by the goroutine body. -/
structure Granted where
  index : Nat
  locked : Bool
deriving DecidableEq

/-- Counting loop of `quorumMet`: number of `true` entries of the grant
vector. -/
def countTrue : List Bool → Nat
  | [] => 0
  | b :: rest => (if b then 1 else 0) + countTrue rest

/-- `quorumMet(locks)`: `count >= n/2+1` with Go integer division
(`n` is the process-wide node count). -/
def quorumMet (n : Nat) (locks : List Bool) : Bool :=
  decide (n / 2 + 1 ≤ countTrue locks)

/-- Loop of `releaseAll` from index `i` on: for every entry still `true`,
dispatch a release RPC (recorded in the second component, in increasing index
order) and clear the entry. -/
def releaseAllAux : Nat → List Bool → List Bool × List Nat
  | _, [] => ([], [])
  | i, b :: rest =>
    let p := releaseAllAux (i + 1) rest
    if b then (false :: p.1, i :: p.2) else (b :: p.1, p.2)

/-- `releaseAll(clnts, locks, lockName)`: release every granted peer lock and
clear the vector; returns the updated vector and the dispatched indices. -/
def releaseAll (locks : List Bool) : List Bool × List Nat :=
  releaseAllAux 0 locks

/-- Specification-side helper: the indices of the `true` entries, offset by
`i`. -/
def trueIndicesAux : Nat → List Bool → List Nat
  | _, [] => []
  | i, b :: rest =>
    if b then i :: trueIndicesAux (i + 1) rest else trueIndicesAux (i + 1) rest

/-- Specification-side helper: the indices of the `true` entries of a grant
vector. -/
def trueIndices (locks : List Bool) : List Nat :=
  trueIndicesAux 0 locks

/-- Go built-in `copy(dst, src)` on boolean slices: overwrite the prefix of
`dst` with `src`, truncating to the shorter of the two; `dst` keeps its
length. -/
def goCopy : List Bool → List Bool → List Bool
  | [], _ => []
  | dst, [] => dst
  | _ :: dst, s :: src => s :: goCopy dst src

/-- Outcome of the decision phase of `lock`:
the grant vector at the decision point, the replies still in flight, the loop
variable `i` at exit (which fixes how many receives the drain loop performs),
and the release RPCs dispatched by `releaseAll` calls during the phase. -/
structure DecisionOut where
  locks : List Bool
  rest : List Granted
  iExit : Nat
  released : List Nat
deriving DecidableEq

/-- Decision phase of `lock` (the `for ; i < n; i++` select loop).
`tpos = some t` means the `time.After` case is selected after `t` more
replies have been consumed; `none` means it is never selected.  A `true`
reply marks its index; a `false` reply aborts the attempt after releasing
everything acquired; on the timer, the attempt is kept only if quorum is
already met.  The loop breaks before `i++` on `done`, so `iExit` is the
number of completed iterations.  `none` models the coordinator blocking on an
empty channel with no timer. -/
def decisionLoop (n : Nat) (i : Nat) (locks : List Bool) (tpos : Option Nat)
    (replies : List Granted) : Option DecisionOut :=
  if n ≤ i then some ⟨locks, replies, i, []⟩
  else if tpos = some 0 then
    if quorumMet n locks then some ⟨locks, replies, i, []⟩
    else some ⟨(releaseAll locks).1, replies, i, (releaseAll locks).2⟩
  else
    match replies with
    | [] => none
    | g :: rest =>
      if g.locked then
        decisionLoop n (i + 1) (locks.set g.index true) (tpos.map (fun t => t - 1)) rest
      else
        some ⟨(releaseAll locks).1, rest, i, (releaseAll locks).2⟩

/-- Drain phase of `lock`: perform `k` further receives; every late
`locked = true` reply gets an asynchronous release RPC dispatched (recorded in
the first component) and is never added to the grant vector.  The Bool is
`true` when the loop would block because it attempts more receives than
replies remain (which happens after a `false`-reply abort, since the abort
iteration consumed a reply without advancing `i`). -/
def drainLoop : Nat → List Granted → List Nat × Bool
  | 0, _ => ([], false)
  | _ + 1, [] => ([], true)
  | k + 1, g :: rest =>
    let p := drainLoop k rest
    if g.locked then (g.index :: p.1, p.2) else p

/-- Outcome of one acquisition attempt (`lock`): the returned quorum Bool,
the grant vector left in `*locks`, the releases dispatched during the
decision phase, the releases dispatched by the drain phase, and whether the
drain loop blocks. -/
structure AttemptOut where
  success : Bool
  locks : List Bool
  relDecision : List Nat
  relDrain : List Nat
  drainBlocked : Bool
deriving DecidableEq

/-- One acquisition attempt: `lock(clnts, &locks, lockName)`.  The vector
starts all-`false`; `quorum` is computed from the vector after the decision
phase, before the drain phase, and the drain phase never writes to the
vector. -/
def lock (n : Nat) (replies : List Granted) (tpos : Option Nat) : Option AttemptOut :=
  match decisionLoop n 0 (List.replicate n false) tpos replies with
  | none => none
  | some d =>
    some ⟨quorumMet n d.locks, d.locks, d.released,
          (drainLoop (n - d.iExit) d.rest).1, (drainLoop (n - d.iExit) d.rest).2⟩

/-- Retry loop of `DMutex.Lock`, one schedule per attempt: on success the
attempt vector is copied into a fresh `dm.locks` of length `n` and `Lock`
returns; on failure the next attempt runs.  `none`: the schedule list is
exhausted (Lock retries forever) or an attempt blocks. -/
def Lock (n : Nat) : List (List Granted × Option Nat) → Option (List Bool)
  | [] => none
  | (replies, tpos) :: rest =>
    match lock n replies tpos with
    | none => none
    | some a =>
      if a.success then some (goCopy (List.replicate n false) a.locks)
      else Lock n rest

/-- `DMutex.locked()`: copy `dm.locks` into a fresh length-`n` vector and
test quorum on the copy. -/
def locked (n : Nat) (dmLocks : List Bool) : Bool :=
  quorumMet n (goCopy (List.replicate n false) dmLocks)

/-- Release loop of `DMutex.Unlock` over client slots `i, i+1, ...` with `m`
slots remaining: for every slot whose grant entry is `true`, dispatch an
asynchronous release RPC (recorded) and clear the entry. -/
def unlockLoopAux : Nat → Nat → List Bool → List Bool × List Nat
  | _, 0, locks => (locks, [])
  | i, m + 1, locks =>
    if locks.getD i false then
      let p := unlockLoopAux (i + 1) m (locks.set i false)
      (p.1, i :: p.2)
    else
      unlockLoopAux (i + 1) m locks

/-- `DMutex.Unlock`: panic (`none`) unless quorum is currently met by
`dm.locks`; otherwise walk the `m` client slots, dispatching an asynchronous
release for every granted entry and clearing it, without waiting for the RPCs
(`m` is the length of `dm.clnts`). -/
def Unlock (n m : Nat) (dmLocks : List Bool) : Option (List Bool × List Nat) :=
  if locked n dmLocks then some (unlockLoopAux 0 m dmLocks) else none

/-- Loop of `DMutex.hasLock` from position `i` of the node list: at the first
configured address equal to `node`, return `dm.locks` at that index (`none`
models the out-of-range panic); `some false` when no address matches. -/
def hasLockAux (locks : List Bool) (node : String) : Nat → List String → Option Bool
  | _, [] => some false
  | i, a :: rest =>
    if a = node then locks[i]? else hasLockAux locks node (i + 1) rest

/-- `DMutex.hasLock(node)` over the configured `nodes` sequence. -/
def hasLock (nodeList : List String) (locks : List Bool) (node : String) : Option Bool :=
  hasLockAux locks node 0 nodeList

/-- Back-off update of `DMutex.Lock` after one failed attempt, where `r`
models `int(rand.Float64() * math.Pow(2, float64(runs)))`:
add the draw, and either reset (`backOff mod 64`, `runs = 1`) when the sum
exceeds 1024, or increment `runs` up to its cap of 10. -/
def backoffStep (backOff runs r : Nat) : Nat × Nat :=
  let b := backOff + r
  if 1024 < b then (b % 64, 1)
  else if runs < 10 then (b, runs + 1) else (b, runs)

/-- Sleep durations passed to `time.Sleep` by successive failed attempts of
one `Lock` call, one per random draw: each iteration sleeps the current
`backOff` and then updates it with its draw. -/
def backoffSleeps : Nat → Nat → List Nat → List Nat
  | _, _, [] => []
  | backOff, runs, r :: rs =>
    backOff :: (backoffSleeps (backoffStep backOff runs r).1 (backoffStep backOff runs r).2 rs)

/-- Sleep sequence of a `Lock` call, which starts with `runs = 1`,
`backOff = 1`. -/
def lockSleeps (rs : List Nat) : List Nat :=
  backoffSleeps 1 1 rs

/-- Legality of a sequence of random draws: `rand.Float64()` lies in `[0,1)`,
so the truncated draw at a state with exponent `runs` lies below `2 ^ runs`. -/
def validRandsFrom : Nat → Nat → List Nat → Bool
  | _, _, [] => true
  | backOff, runs, r :: rs =>
    decide (r < 2 ^ runs) &&
      validRandsFrom (backoffStep backOff runs r).1 (backoffStep backOff runs r).2 rs

/-- Specification-side helper: effect of a run of `true` replies on the grant
vector (each marks its index). -/
def applyGrants (locks : List Bool) (gs : List Granted) : List Bool :=
  gs.foldl (fun l g => l.set g.index true) locks

/-! ### Basic lemmas about the helpers -/

theorem countTrue_replicate_false (n : Nat) : countTrue (List.replicate n false) = 0 := by
  induction n with
  | zero => rfl
  | succ n ih => simp [List.replicate_succ, countTrue, ih]

theorem quorumMet_iff (n : Nat) (locks : List Bool) :
    quorumMet n locks = true ↔ n / 2 + 1 ≤ countTrue locks := by
  simp [quorumMet]

theorem quorumMet_replicate_false (n m : Nat) :
    quorumMet n (List.replicate m false) = false := by
  have h : ¬ n / 2 + 1 ≤ countTrue (List.replicate m false) := by
    rw [countTrue_replicate_false]; omega
  simp [quorumMet, h]

theorem goCopy_nil (dst : List Bool) : goCopy dst [] = dst := by
  cases dst <;> rfl

theorem goCopy_self (l : List Bool) : ∀ n, l.length = n →
    goCopy (List.replicate n false) l = l := by
  induction l with
  | nil => intro n h; rw [← h]; rfl
  | cons b rest ih =>
    intro n h
    rw [← h]
    simp only [List.length_cons, List.replicate_succ, goCopy]
    rw [ih rest.length rfl]

theorem countTrue_goCopy (l : List Bool) : ∀ n, l.length ≤ n →
    countTrue (goCopy (List.replicate n false) l) = countTrue l := by
  induction l with
  | nil => intro n h; rw [goCopy_nil, countTrue_replicate_false]; rfl
  | cons b rest ih =>
    intro n h
    cases n with
    | zero => simp at h
    | succ m =>
      simp only [List.replicate_succ, goCopy, countTrue]
      rw [ih m (by simpa using h)]

theorem releaseAllAux_fst (l : List Bool) : ∀ i,
    (releaseAllAux i l).1 = List.replicate l.length false := by
  induction l with
  | nil => intro i; rfl
  | cons b rest ih =>
    intro i
    by_cases hb : b = true <;>
      simp [releaseAllAux, hb, ih, List.replicate_succ]

theorem releaseAllAux_snd (l : List Bool) : ∀ i,
    (releaseAllAux i l).2 = trueIndicesAux i l := by
  induction l with
  | nil => intro i; rfl
  | cons b rest ih =>
    intro i
    by_cases hb : b = true <;> simp [releaseAllAux, trueIndicesAux, hb, ih]

theorem mem_trueIndicesAux (l : List Bool) : ∀ i j, j ∈ trueIndicesAux i l →
    i ≤ j ∧ l.getD (j - i) false = true := by
  induction l with
  | nil => intro i j h; simp [trueIndicesAux] at h
  | cons b rest ih =>
    intro i j h
    by_cases hb : b = true
    · rw [trueIndicesAux, if_pos hb] at h
      rcases List.mem_cons.mp h with rfl | h2
      · simpa using hb
      · obtain ⟨h1, h2⟩ := ih (i + 1) j h2
        refine ⟨by omega, ?_⟩
        have he : j - i = (j - (i + 1)) + 1 := by omega
        rw [he, List.getD_cons_succ]
        exact h2
    · rw [trueIndicesAux, if_neg hb] at h
      obtain ⟨h1, h2⟩ := ih (i + 1) j h
      refine ⟨by omega, ?_⟩
      have he : j - i = (j - (i + 1)) + 1 := by omega
      rw [he, List.getD_cons_succ]
      exact h2

theorem applyGrants_cons (locks : List Bool) (g : Granted) (gs : List Granted) :
    applyGrants locks (g :: gs) = applyGrants (locks.set g.index true) gs := rfl

theorem applyGrants_length (gs : List Granted) : ∀ locks : List Bool,
    (applyGrants locks gs).length = locks.length := by
  induction gs with
  | nil => intro locks; rfl
  | cons g gs ih =>
    intro locks
    rw [applyGrants_cons, ih, List.length_set]

theorem getD_set_ne (l : List Bool) (i j : Nat) (a d : Bool) (h : i ≠ j) :
    (l.set i a).getD j d = l.getD j d := by
  simp [List.getD_eq_getElem?_getD, List.getElem?_set_ne h]

theorem getD_set_self_false (l : List Bool) (i : Nat) :
    (l.set i false).getD i false = false := by
  by_cases h : i < l.length
  · simp [List.getD_eq_getElem?_getD, List.getElem?_set_self h]
  · have h2 : (l.set i false).length ≤ i := by rw [List.length_set]; omega
    simp [List.getD_eq_getElem?_getD, List.getElem?_eq_none h2]

/-! ### Lemmas about the `Unlock` release loop -/

theorem unlockLoopAux_fst_length : ∀ (m i : Nat) (locks : List Bool),
    (unlockLoopAux i m locks).1.length = locks.length := by
  intro m
  induction m with
  | zero => intro i locks; rfl
  | succ m ih =>
    intro i locks
    by_cases hb : locks.getD i false = true
    · simp only [unlockLoopAux, if_pos hb]
      rw [ih, List.length_set]
    · simp only [unlockLoopAux, if_neg hb]
      exact ih (i + 1) locks

theorem unlockLoopAux_fst_getD : ∀ (m i : Nat) (locks : List Bool) (j : Nat),
    (unlockLoopAux i m locks).1.getD j false =
      if i ≤ j ∧ j < i + m then false else locks.getD j false := by
  intro m
  induction m with
  | zero =>
    intro i locks j
    have h : ¬ (i ≤ j ∧ j < i + 0) := by omega
    rw [if_neg h]; rfl
  | succ m ih =>
    intro i locks j
    by_cases hb : locks.getD i false = true
    · simp only [unlockLoopAux, if_pos hb]
      rw [ih]
      by_cases hj : i = j
      · subst hj
        have h1 : ¬ (i + 1 ≤ i ∧ i < i + 1 + m) := by omega
        have h2 : i ≤ i ∧ i < i + (m + 1) := by omega
        rw [if_neg h1, if_pos h2, getD_set_self_false]
      · rw [getD_set_ne locks i j false false hj]
        have he : (i + 1 ≤ j ∧ j < i + 1 + m) ↔ (i ≤ j ∧ j < i + (m + 1)) := by omega
        by_cases hr : i + 1 ≤ j ∧ j < i + 1 + m
        · rw [if_pos hr, if_pos (he.mp hr)]
        · rw [if_neg hr, if_neg (fun hc => hr (he.mpr hc))]
    · simp only [unlockLoopAux, if_neg hb]
      rw [ih]
      by_cases hj : i = j
      · subst hj
        have h1 : ¬ (i + 1 ≤ i ∧ i < i + 1 + m) := by omega
        have h2 : i ≤ i ∧ i < i + (m + 1) := by omega
        rw [if_neg h1, if_pos h2]
        simpa using hb
      · have he : (i + 1 ≤ j ∧ j < i + 1 + m) ↔ (i ≤ j ∧ j < i + (m + 1)) := by omega
        by_cases hr : i + 1 ≤ j ∧ j < i + 1 + m
        · rw [if_pos hr, if_pos (he.mp hr)]
        · rw [if_neg hr, if_neg (fun hc => hr (he.mpr hc))]

theorem mem_unlockLoopAux_snd : ∀ (m i : Nat) (locks : List Bool) (j : Nat),
    j ∈ (unlockLoopAux i m locks).2 → i ≤ j ∧ locks.getD j false = true := by
  intro m
  induction m with
  | zero => intro i locks j h; simp [unlockLoopAux] at h
  | succ m ih =>
    intro i locks j h
    by_cases hb : locks.getD i false = true
    · simp only [unlockLoopAux, if_pos hb] at h
      rcases List.mem_cons.mp h with rfl | h2
      · exact ⟨Nat.le_refl j, hb⟩
      · obtain ⟨h1, h2⟩ := ih (i + 1) (locks.set i false) j h2
        refine ⟨by omega, ?_⟩
        rw [getD_set_ne locks i j false false (by omega)] at h2
        exact h2
    · simp only [unlockLoopAux, if_neg hb] at h
      obtain ⟨h1, h2⟩ := ih (i + 1) locks j h
      exact ⟨by omega, h2⟩

theorem mem_unlockLoopAux_snd_of : ∀ (m i : Nat) (locks : List Bool) (j : Nat),
    i ≤ j → j < i + m → locks.getD j false = true →
    j ∈ (unlockLoopAux i m locks).2 := by
  intro m
  induction m with
  | zero => intro i locks j h1 h2; omega
  | succ m ih =>
    intro i locks j h1 h2 h3
    by_cases hj : i = j
    · subst hj
      simp only [unlockLoopAux, if_pos h3]
      exact List.mem_cons_self _ _
    · by_cases hb : locks.getD i false = true
      · simp only [unlockLoopAux, if_pos hb]
        refine List.mem_cons_of_mem _ (ih (i + 1) (locks.set i false) j (by omega) (by omega) ?_)
        rw [getD_set_ne locks i j false false hj]
        exact h3
      · simp only [unlockLoopAux, if_neg hb]
        exact ih (i + 1) locks j (by omega) (by omega) h3

/-! ### Lemmas about the drain phase -/

theorem mem_drainLoop_fst : ∀ (k : Nat) (replies : List Granted) (j : Nat),
    j ∈ (drainLoop k replies).1 →
    j ∈ (replies.filter (fun g => g.locked)).map Granted.index := by
  intro k
  induction k with
  | zero => intro replies j h; simp [drainLoop] at h
  | succ k ih =>
    intro replies j h
    cases replies with
    | nil => simp [drainLoop] at h
    | cons g rest =>
      by_cases hg : g.locked = true
      · simp only [drainLoop, if_pos hg] at h
        rcases List.mem_cons.mp h with rfl | h2
        · simp [List.filter_cons, hg]
        · simp only [List.filter_cons, hg, if_true, List.map_cons]
          exact List.mem_cons_of_mem _ (ih rest j h2)
      · simp only [drainLoop, if_neg hg] at h
        simp only [List.filter_cons, hg]
        exact ih rest j h


/-! ### Step equations for the decision loop -/

theorem decisionLoop_exit (n i : Nat) (locks : List Bool) (tpos : Option Nat)
    (replies : List Granted) (h : n ≤ i) :
    decisionLoop n i locks tpos replies = some ⟨locks, replies, i, []⟩ := by
  rw [decisionLoop.eq_def, if_pos h]

theorem decisionLoop_timeout_met (n i : Nat) (locks : List Bool)
    (replies : List Granted) (h1 : ¬ n ≤ i) (h2 : quorumMet n locks = true) :
    decisionLoop n i locks (some 0) replies = some ⟨locks, replies, i, []⟩ := by
  rw [decisionLoop.eq_def, if_neg h1, if_pos rfl, if_pos h2]

theorem decisionLoop_timeout_rel (n i : Nat) (locks : List Bool)
    (replies : List Granted) (h1 : ¬ n ≤ i) (h2 : quorumMet n locks = false) :
    decisionLoop n i locks (some 0) replies =
      some ⟨(releaseAll locks).1, replies, i, (releaseAll locks).2⟩ := by
  rw [decisionLoop.eq_def, if_neg h1, if_pos rfl, if_neg (by simp [h2])]

theorem decisionLoop_block (n i : Nat) (locks : List Bool) (tpos : Option Nat)
    (h1 : ¬ n ≤ i) (h2 : ¬ tpos = some 0) :
    decisionLoop n i locks tpos [] = none := by
  rw [decisionLoop.eq_def, if_neg h1, if_neg h2]

theorem decisionLoop_grant (n i : Nat) (locks : List Bool) (tpos : Option Nat)
    (g : Granted) (rest : List Granted) (h1 : ¬ n ≤ i) (h2 : ¬ tpos = some 0)
    (h3 : g.locked = true) :
    decisionLoop n i locks tpos (g :: rest) =
      decisionLoop n (i + 1) (locks.set g.index true) (tpos.map fun t => t - 1) rest := by
  rw [decisionLoop.eq_def, if_neg h1, if_neg h2]
  dsimp only
  rw [if_pos h3]

theorem decisionLoop_negative (n i : Nat) (locks : List Bool) (tpos : Option Nat)
    (g : Granted) (rest : List Granted) (h1 : ¬ n ≤ i) (h2 : ¬ tpos = some 0)
    (h3 : g.locked = false) :
    decisionLoop n i locks tpos (g :: rest) =
      some ⟨(releaseAll locks).1, rest, i, (releaseAll locks).2⟩ := by
  rw [decisionLoop.eq_def, if_neg h1, if_neg h2]
  dsimp only
  rw [if_neg (by simp [h3])]

theorem decisionLoop_locks_length (n : Nat) : ∀ (replies : List Granted) (i : Nat)
    (locks : List Bool) (tpos : Option Nat) (d : DecisionOut),
    decisionLoop n i locks tpos replies = some d → d.locks.length = locks.length := by
  intro replies
  induction replies with
  | nil =>
    intro i locks tpos d h
    by_cases h1 : n ≤ i
    · rw [decisionLoop_exit n i locks tpos [] h1] at h
      cases h; rfl
    · by_cases h2 : tpos = some 0
      · subst h2
        by_cases h3 : quorumMet n locks = true
        · rw [decisionLoop_timeout_met n i locks [] h1 h3] at h
          cases h; rfl
        · rw [decisionLoop_timeout_rel n i locks []
            h1 (Bool.eq_false_iff.mpr h3)] at h
          cases h
          simp [releaseAll, releaseAllAux_fst]
      · rw [decisionLoop_block n i locks tpos h1 h2] at h
        cases h
  | cons g rest ih =>
    intro i locks tpos d h
    by_cases h1 : n ≤ i
    · rw [decisionLoop_exit n i locks tpos (g :: rest) h1] at h
      cases h; rfl
    · by_cases h2 : tpos = some 0
      · subst h2
        by_cases h3 : quorumMet n locks = true
        · rw [decisionLoop_timeout_met n i locks (g :: rest) h1 h3] at h
          cases h; rfl
        · rw [decisionLoop_timeout_rel n i locks (g :: rest)
            h1 (Bool.eq_false_iff.mpr h3)] at h
          cases h
          simp [releaseAll, releaseAllAux_fst]
      · by_cases h4 : g.locked = true
        · rw [decisionLoop_grant n i locks tpos g rest h1 h2 h4] at h
          have := ih (i + 1) (locks.set g.index true) (tpos.map fun t => t - 1) d h
          rw [this, List.length_set]
        · rw [decisionLoop_negative n i locks tpos g rest h1 h2
            (Bool.eq_false_iff.mpr h4)] at h
          cases h
          simp [releaseAll, releaseAllAux_fst]

/-- Unfolding of one attempt: a returned `AttemptOut` is assembled from the
decision-phase outcome, with `success` recomputed from the frozen vector and
the drain receives fixed by `iExit`. -/
theorem lock_eq_some {n : Nat} {replies : List Granted} {tpos : Option Nat}
    {a : AttemptOut} (h : lock n replies tpos = some a) :
    ∃ d, decisionLoop n 0 (List.replicate n false) tpos replies = some d ∧
      a = ⟨quorumMet n d.locks, d.locks, d.released,
           (drainLoop (n - d.iExit) d.rest).1, (drainLoop (n - d.iExit) d.rest).2⟩ := by
  unfold lock at h
  cases hd : decisionLoop n 0 (List.replicate n false) tpos replies with
  | none => rw [hd] at h; cases h
  | some d =>
    rw [hd] at h
    refine ⟨d, rfl, ?_⟩
    injection h with h
    exact h.symm

/-! ### Back-off lemmas -/

theorem backoffStep_fst_le (backOff runs r : Nat) :
    (backoffStep backOff runs r).1 ≤ 1024 := by
  unfold backoffStep
  by_cases h : 1024 < backOff + r
  · simp only [if_pos h]
    omega
  · simp only [if_neg h]
    by_cases h2 : runs < 10
    · simp only [if_pos h2]; omega
    · simp only [if_neg h2]; omega

theorem backoffSleeps_le (rs : List Nat) : ∀ backOff runs, backOff ≤ 1024 →
    ∀ s ∈ backoffSleeps backOff runs rs, s ≤ 1024 := by
  induction rs with
  | nil => intro b runs hb s hs; simp [backoffSleeps] at hs
  | cons r rs ih =>
    intro b runs hb s hs
    rw [backoffSleeps] at hs
    rcases List.mem_cons.mp hs with rfl | hs2
    · exact hb
    · exact ih _ _ (backoffStep_fst_le b runs r) s hs2

/-- A reply in the drained portion of the reply stream with `locked = true`
gets a release dispatched by the drain loop. -/
theorem drainLoop_mem_take (g : Granted) : ∀ (replies : List Granted) (k : Nat),
    g ∈ replies.take k → g.locked = true → g.index ∈ (drainLoop k replies).1 := by
  intro replies
  induction replies with
  | nil => intro k hg hl; simp at hg
  | cons r rest ih =>
    intro k hg hl
    cases k with
    | zero => simp at hg
    | succ k =>
      rw [List.take_succ_cons] at hg
      rcases List.mem_cons.mp hg with rfl | hg2
      · simp [drainLoop, hl]
      · have hmem := ih k hg2 hl
        by_cases hr : r.locked = true <;>
          simp [drainLoop, hr, hmem]

/-- Reaching a `false` reply after a run of `true` replies, with the timer not
yet selected and the reply budget not exhausted, aborts the decision phase on
the spot: everything granted so far is released and cleared, the loop exits
with `iExit` equal to the number of grants consumed, and the remaining
replies are left for the drain phase. -/
theorem decisionLoop_false_abort (pre : List Granted) :
    ∀ (n i : Nat) (locks : List Bool) (tpos : Option Nat) (g : Granted)
      (suf : List Granted),
      (∀ x ∈ pre, x.locked = true) → g.locked = false → i + pre.length < n →
      (∀ t, tpos = some t → pre.length < t) →
      decisionLoop n i locks tpos (pre ++ g :: suf) =
        some ⟨(releaseAll (applyGrants locks pre)).1, suf, i + pre.length,
              (releaseAll (applyGrants locks pre)).2⟩ := by
  induction pre with
  | nil =>
    intro n i locks tpos g suf hpre hg hlt htpos
    have h1 : ¬ n ≤ i := by simp at hlt; omega
    have h2 : ¬ tpos = some 0 := fun hc => by
      have := htpos 0 hc; simp at this
    rw [List.nil_append, decisionLoop_negative n i locks tpos g suf h1 h2 hg]
    simp [applyGrants]
  | cons x pre ih =>
    intro n i locks tpos g suf hpre hg hlt htpos
    have hx : x.locked = true := hpre x (List.mem_cons_self x pre)
    have h1 : ¬ n ≤ i := by simp at hlt ⊢; omega
    have h2 : ¬ tpos = some 0 := fun hc => by
      have := htpos 0 hc; simp at this
    rw [List.cons_append, decisionLoop_grant n i locks tpos x (pre ++ g :: suf) h1 h2 hx]
    rw [ih n (i + 1) (locks.set x.index true) (tpos.map fun t => t - 1) g suf
      (fun y hy => hpre y (List.mem_cons_of_mem x hy)) hg
      (by simp at hlt ⊢; omega)
      (fun t ht => by
        cases tpos with
        | none => simp at ht
        | some s =>
          simp at ht
          have hs := htpos s rfl
          simp at hs
          omega)]
    rw [applyGrants_cons]
    have he : i + 1 + pre.length = i + (x :: pre).length := by
      simp; omega
    rw [he]

/-! ### Claim theorems -/

/-- C1: whenever `DMutex.Lock` returns, the stored grant vector `dm.locks`
has at least `n/2 + 1` entries set; the vector is exactly the grant vector of
a successful acquisition attempt, copied into `dm.locks`. -/
theorem C1_lock_returns_with_quorum (n : Nat) :
    ∀ (atts : List (List Granted × Option Nat)) (dmLocks : List Bool),
    Lock n atts = some dmLocks →
    n / 2 + 1 ≤ countTrue dmLocks ∧
    ∃ replies tpos a, (replies, tpos) ∈ atts ∧ lock n replies tpos = some a ∧
      a.success = true ∧ dmLocks = goCopy (List.replicate n false) a.locks := by
  intro atts
  induction atts with
  | nil => intro dmLocks h; cases h
  | cons att rest ih =>
    obtain ⟨replies, tpos⟩ := att
    intro dmLocks h
    rw [Lock] at h
    cases ha : lock n replies tpos with
    | none => rw [ha] at h; cases h
    | some a =>
      rw [ha] at h
      dsimp only at h
      by_cases hs : a.success = true
      · rw [if_pos hs] at h
        injection h with h
        subst h
        obtain ⟨d, hd, hae⟩ := lock_eq_some ha
        have hlen : d.locks.length = n := by
          have := decisionLoop_locks_length n replies 0 (List.replicate n false) tpos d hd
          simpa using this
        have hlocks : a.locks = d.locks := by rw [hae]
        have hq : quorumMet n d.locks = true := by
          have h2 : a.success = quorumMet n d.locks := by rw [hae]
          rw [← h2]; exact hs
        have hcopy : goCopy (List.replicate n false) a.locks = a.locks := by
          rw [hlocks]; exact goCopy_self d.locks n hlen
        constructor
        · rw [hcopy, hlocks]
          exact (quorumMet_iff n d.locks).mp hq
        · exact ⟨replies, tpos, a, List.mem_cons_self _ _, ha, hs, rfl⟩
      · rw [if_neg hs] at h
        obtain ⟨hq, r2, t2, a2, hmem, h5⟩ := ih dmLocks h
        exact ⟨hq, r2, t2, a2, List.mem_cons_of_mem _ hmem, h5⟩

theorem C1_witness : 1 / 2 + 1 ≤ countTrue [true] :=
  (C1_lock_returns_with_quorum 1 [([⟨0, true⟩], none)] [true] (by decide)).1

/-- C2: the grant vector of an attempt is frozen at the decision point: the
vector returned by `lock` is the decision-phase vector and the drain phase
never adds to it, and every late `locked = true` reply processed by the drain
phase gets a release RPC dispatched, on successful and failed attempts
alike. -/
theorem C2_decision_point_freeze (n : Nat) (replies : List Granted)
    (tpos : Option Nat) (a : AttemptOut) (d : DecisionOut)
    (ha : lock n replies tpos = some a)
    (hd : decisionLoop n 0 (List.replicate n false) tpos replies = some d) :
    a.locks = d.locks ∧
    a.relDrain = (drainLoop (n - d.iExit) d.rest).1 ∧
    ∀ g ∈ d.rest.take (n - d.iExit), g.locked = true → g.index ∈ a.relDrain := by
  obtain ⟨d2, hd2, hae⟩ := lock_eq_some ha
  rw [hd] at hd2
  injection hd2 with hd2
  subst hd2
  subst hae
  exact ⟨rfl, rfl, fun g hg hl => drainLoop_mem_take g d.rest (n - d.iExit) hg hl⟩

theorem C2_witness :
    ([2] : List Nat) = (drainLoop (3 - 2) [⟨2, true⟩]).1 ∧
    (⟨2, true⟩ : Granted).index ∈ ([2] : List Nat) := by
  have h := C2_decision_point_freeze 3 [⟨0, true⟩, ⟨1, true⟩, ⟨2, true⟩] (some 2)
    ⟨true, [true, true, false], [], [2], false⟩
    ⟨[true, true, false], [⟨2, true⟩], 2, []⟩ (by decide) (by decide)
  exact ⟨h.2.1, h.2.2 ⟨2, true⟩ (by decide) rfl⟩

/-- C3: a `locked = false` reply during the decision phase loses the attempt
immediately: release RPCs are dispatched for exactly the indices marked
`true` at that point, those entries are cleared, the remaining replies are
left to the drain phase, and the attempt returns `success = false`. -/
theorem C3_negative_reply_aborts (n : Nat) (pre : List Granted) (g : Granted)
    (suf : List Granted) (tpos : Option Nat)
    (hpre : ∀ x ∈ pre, x.locked = true) (hg : g.locked = false)
    (hlen : pre.length < n) (htpos : ∀ t, tpos = some t → pre.length < t) :
    lock n (pre ++ g :: suf) tpos =
      some ⟨false, List.replicate n false,
            trueIndices (applyGrants (List.replicate n false) pre),
            (drainLoop (n - pre.length) suf).1,
            (drainLoop (n - pre.length) suf).2⟩ := by
  unfold lock
  rw [decisionLoop_false_abort pre n 0 (List.replicate n false) tpos g suf hpre hg
    (by omega) htpos]
  have hlenA : (applyGrants (List.replicate n false) pre).length = n := by
    rw [applyGrants_length, List.length_replicate]
  dsimp only
  rw [releaseAll, releaseAllAux_fst, releaseAllAux_snd, hlenA,
    quorumMet_replicate_false]
  simp [trueIndices, Nat.zero_add]

theorem C3_witness :
    lock 2 [⟨0, true⟩, ⟨1, false⟩] none =
      some ⟨false, List.replicate 2 false,
            trueIndices (applyGrants (List.replicate 2 false) [⟨0, true⟩]),
            (drainLoop (2 - 1) []).1, (drainLoop (2 - 1) []).2⟩ :=
  C3_negative_reply_aborts 2 [⟨0, true⟩] ⟨1, false⟩ [] none
    (by decide) rfl (by decide) (fun t ht => nomatch ht)

/-- C4: when quorum is met by `dm.locks` on entry, `Unlock` returns after
dispatching an asynchronous release RPC for every index whose grant entry was
`true` and clearing that entry; the RPCs are only recorded as dispatched,
never awaited. -/
theorem C4_unlock_dispatches_and_clears (n : Nat) (locks : List Bool)
    (hlen : locks.length = n) (hq : locked n locks = true) :
    Unlock n n locks = some (unlockLoopAux 0 n locks) ∧
    ∀ i, i < n → locks.getD i false = true →
      i ∈ (unlockLoopAux 0 n locks).2 ∧
      (unlockLoopAux 0 n locks).1.getD i false = false := by
  constructor
  · rw [Unlock, if_pos hq]
  · intro i hi hl
    constructor
    · exact mem_unlockLoopAux_snd_of n 0 locks i (Nat.zero_le i) (by omega) hl
    · rw [unlockLoopAux_fst_getD]
      rw [if_pos ⟨Nat.zero_le i, by omega⟩]

theorem C4_witness :
    (Unlock 1 1 [true] = some (unlockLoopAux 0 1 [true]) ∧
     (0 ∈ (unlockLoopAux 0 1 [true]).2 ∧
      (unlockLoopAux 0 1 [true]).1.getD 0 false = false)) := by
  have h := C4_unlock_dispatches_and_clears 1 [true] rfl (by decide)
  exact ⟨h.1, h.2 0 (by decide) rfl⟩

/-- C5: `Unlock` panics exactly when the number of `true` entries of
`dm.locks` is below `n/2 + 1` on entry; in particular on a freshly
constructed `DMutex` (nil grant vector) it always panics. -/
theorem C5_unlock_panic_iff (n m : Nat) (locks : List Bool)
    (hlen : locks.length ≤ n) :
    (Unlock n m locks = none ↔ countTrue locks < n / 2 + 1) ∧
    Unlock n m ([] : List Bool) = none := by
  have hfresh : Unlock n m ([] : List Bool) = none := by
    have h0 : locked n ([] : List Bool) = false := by
      rw [locked, goCopy_nil, quorumMet_replicate_false]
    rw [Unlock, if_neg (by simp [h0])]
  refine ⟨?_, hfresh⟩
  rw [Unlock]
  by_cases h : locked n locks = true
  · rw [if_pos h]
    constructor
    · intro hc; cases hc
    · intro hc
      exfalso
      rw [locked] at h
      have h2 := (quorumMet_iff n _).mp h
      rw [countTrue_goCopy locks n hlen] at h2
      omega
  · rw [if_neg h]
    constructor
    · intro _
      rw [locked] at h
      have h2 : ¬ n / 2 + 1 ≤ countTrue (goCopy (List.replicate n false) locks) := by
        intro hc
        exact h ((quorumMet_iff n _).mpr hc)
      rw [countTrue_goCopy locks n hlen] at h2
      omega
    · intro _; rfl

theorem C5_witness :
    (Unlock 1 0 ([] : List Bool) = none ↔ countTrue ([] : List Bool) < 1 / 2 + 1) ∧
    Unlock 1 0 ([] : List Bool) = none :=
  C5_unlock_panic_iff 1 0 [] (by decide)

/-- C6 counterexample: the claim that every sleep lies in `[1, 1024]` ms for
every legal sequence of random draws is false.  With draws
`0 ×9, 1023, 64, 0` (each below `2 ^ runs` at its point), `backOff` reaches
1024 at `runs = 10`, the draw 64 makes it `1088 > 1024`, and
`1088 mod 64 = 0`, so the next iteration sleeps 0 ms. -/
theorem C6_counterexample :
    ¬ ∀ rs : List Nat, validRandsFrom 1 1 rs = true →
        ∀ s ∈ lockSleeps rs, 1 ≤ s ∧ s ≤ 1024 := by
  intro h
  have h0 := h [0, 0, 0, 0, 0, 0, 0, 0, 0, 1023, 64, 0] (by decide) 0 (by decide)
  exact absurd h0.1 (by decide)

/-- C6 (amended): every value passed to the sleep lies in `[0, 1024]` ms:
the upper bound 1024 holds for every draw sequence, but the `mod 64` reset
can produce a zero back-off, so the lower bound is 0, not 1. -/
theorem C6_amended_backoff_bounds (rs : List Nat) (s : Nat)
    (hs : s ∈ lockSleeps rs) : s ≤ 1024 :=
  backoffSleeps_le rs 1 1 (by omega) s hs

theorem C6_witness : (1 : Nat) ∈ lockSleeps [0] ∧ (1 : Nat) ≤ 1024 :=
  ⟨by decide, C6_amended_backoff_bounds [0] 1 (by decide)⟩

/-- C7: every release dispatch is driven by the grant vector or by a received
`locked = true` reply: `releaseAll` and `Unlock` dispatch only for indices
currently marked `true`, and the drain phase dispatches only for replies with
`locked = true`; no release ever goes to a peer that did not grant. -/
theorem C7_releases_driven_by_grants :
    (∀ (locks : List Bool) (j : Nat), j ∈ (releaseAll locks).2 →
       locks.getD j false = true) ∧
    (∀ (n m : Nat) (locks : List Bool) (p : List Bool × List Nat),
       Unlock n m locks = some p → ∀ j ∈ p.2, locks.getD j false = true) ∧
    (∀ (k : Nat) (replies : List Granted) (j : Nat), j ∈ (drainLoop k replies).1 →
       j ∈ (replies.filter (fun g => g.locked)).map Granted.index) := by
  refine ⟨?_, ?_, mem_drainLoop_fst⟩
  · intro locks j h
    rw [releaseAll, releaseAllAux_snd] at h
    have h2 := mem_trueIndicesAux locks 0 j h
    simpa using h2.2
  · intro n m locks p hp j hj
    rw [Unlock] at hp
    by_cases h : locked n locks = true
    · rw [if_pos h] at hp
      injection hp with hp
      subst hp
      exact (mem_unlockLoopAux_snd m 0 locks j hj).2
    · rw [if_neg h] at hp; cases hp

theorem C7_witness :
    ([false, true].getD 1 false = true) ∧
    ([true].getD 0 false = true) ∧
    (5 : Nat) ∈ (([⟨5, true⟩] : List Granted).filter (fun g => g.locked)).map Granted.index := by
  refine ⟨?_, ?_, ?_⟩
  · exact C7_releases_driven_by_grants.1 [false, true] 1 (by decide)
  · exact C7_releases_driven_by_grants.2.1 1 1 [true] ([false], [0]) (by decide) 0 (by decide)
  · exact C7_releases_driven_by_grants.2.2 1 [⟨5, true⟩] 5 (by decide)

/-- C8: `quorumMet` returns `true` exactly when the count of `true` entries
reaches `n/2 + 1` (Go integer division is floor); the threshold is 1 for
`n = 1` and 2 for `n = 2`. -/
theorem C8_quorumMet_threshold (n : Nat) (locks : List Bool) :
    (quorumMet n locks = true ↔ n / 2 + 1 ≤ countTrue locks) ∧
    (quorumMet 1 locks = true ↔ 1 ≤ countTrue locks) ∧
    (quorumMet 2 locks = true ↔ 2 ≤ countTrue locks) := by
  refine ⟨quorumMet_iff n locks, ?_, ?_⟩
  · simpa using quorumMet_iff 1 locks
  · simpa using quorumMet_iff 2 locks

/-- C9: when `Unlock` returns, every entry of `dm.locks` is `false`, so a
second `Unlock` on the same `DMutex` without an intervening successful `Lock`
panics. -/
theorem C9_double_unlock_panics (n : Nat) (locks : List Bool)
    (p : List Bool × List Nat) (hn : 1 ≤ n) (hlen : locks.length = n)
    (h : Unlock n n locks = some p) :
    p.1 = List.replicate n false ∧ Unlock n n p.1 = none := by
  have hp : p = unlockLoopAux 0 n locks := by
    rw [Unlock] at h
    by_cases hq : locked n locks = true
    · rw [if_pos hq] at h; injection h with h; exact h.symm
    · rw [if_neg hq] at h; cases h
  have h1 : p.1 = List.replicate n false := by
    rw [hp]
    have hL : (unlockLoopAux 0 n locks).1.length = n := by
      rw [unlockLoopAux_fst_length, hlen]
    refine List.eq_replicate_iff.mpr ⟨hL, ?_⟩
    intro b hb
    obtain ⟨j, hj, hb2⟩ := List.getElem_of_mem hb
    have hjn : j < n := by rw [hL] at hj; exact hj
    have hgd : (unlockLoopAux 0 n locks).1.getD j false = false := by
      rw [unlockLoopAux_fst_getD]
      rw [if_pos ⟨Nat.zero_le j, by omega⟩]
    rw [List.getD_eq_getElem?_getD, List.getElem?_eq_getElem hj] at hgd
    simp only [Option.getD_some] at hgd
    rw [← hb2, hgd]
  refine ⟨h1, ?_⟩
  rw [h1, Unlock]
  have h0 : locked n (List.replicate n false) = false := by
    rw [locked, goCopy_self (List.replicate n false) n (List.length_replicate n false),
      quorumMet_replicate_false]
  rw [if_neg (by simp [h0])]

theorem C9_witness :
    ((([false], [0]) : List Bool × List Nat).1 = List.replicate 1 false) ∧
    Unlock 1 1 (([false], [0]) : List Bool × List Nat).1 = none :=
  C9_double_unlock_panics 1 [true] ([false], [0]) (by decide) rfl (by decide)

/-! ### Lemmas for `hasLock` -/

theorem hasLockAux_not_found (locks : List Bool) (node : String) :
    ∀ (ns : List String) (i : Nat),
    (∀ j, j < ns.length → ns.getD j "" ≠ node) →
    hasLockAux locks node i ns = some false := by
  intro ns
  induction ns with
  | nil => intro i h; rfl
  | cons a rest ih =>
    intro i h
    have ha : ¬ a = node := by
      have h0 := h 0 (by simp)
      simpa using h0
    rw [hasLockAux, if_neg ha]
    exact ih (i + 1) (fun j hj => by
      have hs := h (j + 1) (by simpa using Nat.succ_lt_succ hj)
      simpa using hs)

theorem hasLockAux_found (locks : List Bool) (node : String) :
    ∀ (ns : List String) (i k : Nat), k < ns.length → ns.getD k "" = node →
    (∀ j, j < k → ns.getD j "" ≠ node) →
    hasLockAux locks node i ns = locks[i + k]? := by
  intro ns
  induction ns with
  | nil => intro i k hk _ _; simp at hk
  | cons a rest ih =>
    intro i k hk heq hfirst
    cases k with
    | zero =>
      have ha : a = node := by simpa using heq
      rw [hasLockAux, if_pos ha]
      simp
    | succ k =>
      have ha : ¬ a = node := by
        have h0 := hfirst 0 (Nat.succ_pos k)
        simpa using h0
      rw [hasLockAux, if_neg ha]
      have he := ih (i + 1) k (by simpa using hk) (by simpa using heq)
        (fun j hj => by
          have hs := hfirst (j + 1) (Nat.succ_lt_succ hj)
          simpa using hs)
      rw [he]
      congr 1
      omega

/-- C10: `hasLock` returns `false` when the address does not occur among the
configured nodes, and otherwise returns the grant flag stored at the first
index whose configured address equals the argument. -/
theorem C10_hasLock_first_match (nodeList : List String) (locks : List Bool)
    (node : String) :
    ((∀ j, j < nodeList.length → nodeList.getD j "" ≠ node) →
       hasLock nodeList locks node = some false) ∧
    (∀ i, i < nodeList.length → nodeList.getD i "" = node →
       (∀ j, j < i → nodeList.getD j "" ≠ node) →
       hasLock nodeList locks node = locks[i]?) := by
  constructor
  · intro h
    exact hasLockAux_not_found locks node nodeList 0 h
  · intro i hi heq hfirst
    have he := hasLockAux_found locks node nodeList 0 i hi heq hfirst
    simpa using he

theorem C10_witness :
    hasLock ["a", "b"] [false, true] "b" = ([false, true] : List Bool)[1]? ∧
    hasLock ["a", "b"] [false, true] "c" = some false := by
  constructor
  · exact (C10_hasLock_first_match ["a", "b"] [false, true] "b").2 1 (by decide)
      (by decide) (fun j hj => by
        have hj0 : j = 0 := by omega
        subst hj0
        decide)
  · exact (C10_hasLock_first_match ["a", "b"] [false, true] "c").1 (fun j hj => by
      have hj2 : j = 0 ∨ j = 1 := by simp at hj; omega
      rcases hj2 with rfl | rfl <;> decide)

end Dsync
